import Mathlib

/-!
Verification of the role-based permission manager
(`src/pm/permissionManager.ts` and `src/pm/config.ts`).

Roles and permissions are opaque strings.  The TypeScript class
`PermissionManager` precomputes, for every key of the `RoleHierarchy`
table, the set of transitively inherited roles (`computeRoleHierarchy`,
a depth-first traversal over a shared mutable `visited` set), and, for
every key of `RoleBasedPermissions`, the set of effective permissions
(`computePermissions`).  The query layer (`hasPermission`,
`hasPermissions`, `hasAnyPermission`, `hasRole`, `getMaxRole`) reads
those caches.

The JavaScript `Set` passed by reference through the recursion is
modelled by explicit state passing: `crhVisit` returns the pair
(result set, updated visited set).  The unbounded recursion of the
source is modelled with a fuel parameter; the theorem
`computeRoleHierarchy_terminates` shows that fuel equal to the number
of role occurrences in the table plus one always suffices, so
`computeRoleHierarchy` (defined with that fuel) computes exactly what
the source recursion computes.
-/

abbrev Role := String
abbrev Permission := String

/-- The principal: roles held directly and explicit permissions. -/
structure PermissionContext where
  roles : List Role
  permissions : List Permission

/-- `RoleHierarchy`-shaped table: role to list of direct parent roles. -/
abbrev Hierarchy := List (Role × List Role)

/-- `RoleBasedPermissions`-shaped table: role to directly granted permissions. -/
abbrev PermTable := List (Role × List String)

/-- Key lookup in a table, as `RoleHierarchy[role]` / `RoleBasedPermissions[role]`. -/
def lookupTable : List (String × List String) → String → Option (List String)
  | [], _ => none
  | (k, v) :: rest, x => if k = x then some v else lookupTable rest x

/-- `RoleHierarchy[role] || []`. -/
def parentsOf (h : Hierarchy) (role : Role) : List Role :=
  (lookupTable h role).getD []

/-- Whether `x` is a key of the table (used to model which entries the
constructor puts into each cache `Map`). -/
def isKey (t : List (String × List String)) (x : String) : Bool :=
  (lookupTable t x).isSome

/-- All role names occurring in the hierarchy table, keys and parents alike. -/
def mentions (h : Hierarchy) : List Role :=
  h.foldr (fun kv acc => kv.1 :: kv.2 ++ acc) []

/-- The occurring role names as a finite set. -/
def mentionsFinset (h : Hierarchy) : Finset Role :=
  (mentions h).toFinset

/-- One step of the `forEach` loop in `computeRoleHierarchy`:
`result.add(inheritedRole)` followed by the recursive call (`f`) on the
shared visited set, whose result is unioned into `result`. -/
def crhStep (f : Role → Finset Role → Option (Finset Role × Finset Role))
    (st : Option (Finset Role × Finset Role)) (p : Role) :
    Option (Finset Role × Finset Role) :=
  match st with
  | none => none
  | some (res, vis) =>
    match f p vis with
    | none => none
    | some (sub, vis') => some (insert p (res ∪ sub), vis')

/-- `computeRoleHierarchy(role, visited)` with explicit fuel.  Returns
`(result, visited)`; `none` means the fuel ran out (never happens with
enough fuel, see `crhVisit_isSome`). -/
def crhVisit (h : Hierarchy) : Nat → Role → Finset Role → Option (Finset Role × Finset Role)
  | 0, _, _ => none
  | fuel + 1, role, visited =>
    if role ∈ visited then some (∅, visited)
    else
      (parentsOf h role).foldl
        (crhStep (fun p vis => crhVisit h fuel p vis))
        (some (∅, insert role visited))

/-- Fuel that always suffices for `crhVisit`. -/
def hierFuel (h : Hierarchy) : Nat :=
  (mentions h).length + 1

/-- `computeRoleHierarchy(role)` as called by the constructor
(fresh empty visited set, result set returned). -/
def computeRoleHierarchy (h : Hierarchy) (role : Role) : Finset Role :=
  ((crhVisit h (hierFuel h) role ∅).getD (∅, ∅)).1

/-- The `cachedRoleHierarchy` map: the constructor fills it for every key
of `RoleHierarchy`; `Map.get` on any other role yields `undefined`. -/
def cachedRoleHierarchy (h : Hierarchy) (role : Role) : Option (Finset Role) :=
  if isKey h role then some (computeRoleHierarchy h role) else none

/-- Direct grants of a role: `RoleBasedPermissions[role]`, empty when absent. -/
def directPerms (pt : PermTable) (role : Role) : Finset Permission :=
  ((lookupTable pt role).getD []).toFinset

/-- `computePermissions(role, visited)`: the role's own grants plus the
grants of every role in its cached closure.  (The `visited` parameter of
the source never causes recursion; the top-level call passes the empty
set.) -/
def computePermissions (h : Hierarchy) (pt : PermTable) (role : Role)
    (visited : Finset Role) : Finset Permission :=
  if role ∈ visited then ∅
  else
    directPerms pt role ∪
      (match cachedRoleHierarchy h role with
       | some s => s.biUnion fun r => directPerms pt r
       | none => ∅)

/-- The `cachedRolePermissions` map: filled for every key of
`RoleBasedPermissions`. -/
def cachedRolePermissions (h : Hierarchy) (pt : PermTable) (role : Role) :
    Option (Finset Permission) :=
  if isKey pt role then some (computePermissions h pt role ∅) else none

/-- `cachedRoleHierarchy.get(role)?.has(req)` — `undefined` is falsy. -/
def cachedHierarchyHas (h : Hierarchy) (role req : Role) : Bool :=
  match cachedRoleHierarchy h role with
  | some s => decide (req ∈ s)
  | none => false

/-- `cachedRolePermissions.get(role)?.has(perm)` — `undefined` is falsy. -/
def cachedPermissionsHas (h : Hierarchy) (pt : PermTable) (role : Role)
    (perm : Permission) : Bool :=
  match cachedRolePermissions h pt role with
  | some s => decide (perm ∈ s)
  | none => false

/-- `hasPermissionThroughRole(roles, permission)`:
`roles.some(role => cache.get(role)?.has(permission))`. -/
def hasPermissionThroughRole (h : Hierarchy) (pt : PermTable)
    (roles : List Role) (perm : Permission) : Bool :=
  roles.any fun role => cachedPermissionsHas h pt role perm

/-- `hasPermission(requiredPermission)`. -/
def hasPermission (h : Hierarchy) (pt : PermTable) (ctx : PermissionContext)
    (perm : Permission) : Bool :=
  if perm ∈ ctx.permissions then true
  else hasPermissionThroughRole h pt ctx.roles perm

/-- `hasPermissions(requiredPermissions)`: `every` over `hasPermission`. -/
def hasPermissions (h : Hierarchy) (pt : PermTable) (ctx : PermissionContext)
    (perms : List Permission) : Bool :=
  perms.all fun p => hasPermission h pt ctx p

/-- `hasAnyPermission(requiredPermissions)`: `some` over `hasPermission`. -/
def hasAnyPermission (h : Hierarchy) (pt : PermTable) (ctx : PermissionContext)
    (perms : List Permission) : Bool :=
  perms.any fun p => hasPermission h pt ctx p

/-- `hasRole(requiredRole)`: some held role equals it or has it in its
cached closure. -/
def hasRole (h : Hierarchy) (ctx : PermissionContext) (req : Role) : Bool :=
  ctx.roles.any fun role => cachedHierarchyHas h role req || decide (role = req)

/-- `getMaxRole()`: `roles.reduce(..., roles[0])`.  On an empty role list
the source yields `undefined`, modelled as `none`. -/
def getMaxRole (h : Hierarchy) (ctx : PermissionContext) : Option Role :=
  match ctx.roles with
  | [] => none
  | r0 :: _ =>
    some (ctx.roles.foldl
      (fun maxRole currentRole =>
        if cachedHierarchyHas h maxRole currentRole then maxRole else currentRole)
      r0)

/-- The shipped `RoleHierarchy` of `config.ts`. -/
def RoleHierarchy : Hierarchy :=
  [("super_admin", ["admin"]),
   ("admin", ["manager"]),
   ("manager", ["proof-reader", "editor", "sales_manager"]),
   ("sales_manager", ["user"]),
   ("proof_reader", ["user"]),
   ("editor", ["user"]),
   ("premium_user", ["user"]),
   ("user", [])]

/-- The shipped `RoleBasedPermissions` of `config.ts`. -/
def RoleBasedPermissions : PermTable :=
  [("super_admin", []),
   ("admin", ["product:delete", "user:delete", "user:create"]),
   ("manager", ["product:create", "product:update"]),
   ("proof_reader", ["product:update"]),
   ("editor", ["product:create", "product:update"]),
   ("premium_user", ["product:review"]),
   ("user", ["product:read"])]

/-- The parent-edge relation of a hierarchy: `roleEdge h a b` holds when
`b` is listed among the direct parents of `a`. -/
def roleEdge (h : Hierarchy) (a b : Role) : Prop :=
  b ∈ parentsOf h a

/-- Reachability avoiding a set `A`: every role after the start lies
outside `A`. -/
def WReach (h : Hierarchy) (A : Finset Role) (a b : Role) : Prop :=
  Relation.ReflTransGen (fun x y => y ∉ A ∧ roleEdge h x y) a b

/-! ### Basic lemmas on tables and reachability -/

theorem lookupTable_mem_mentions {h : Hierarchy} {r : Role} {l : List Role}
    (hl : lookupTable h r = some l) : r ∈ mentions h := by
  induction h with
  | nil => simp [lookupTable] at hl
  | cons kv rest ih =>
    obtain ⟨k, v⟩ := kv
    by_cases hk : k = r
    · subst hk
      simp [mentions]
    · rw [lookupTable, if_neg hk] at hl
      simp [mentions]
      right; right
      simpa [mentions] using ih hl

theorem mem_parentsOf_mem_mentions {h : Hierarchy} {r p : Role}
    (hp : p ∈ parentsOf h r) : p ∈ mentions h := by
  unfold parentsOf at hp
  induction h with
  | nil => simp [lookupTable] at hp
  | cons kv rest ih =>
    obtain ⟨k, v⟩ := kv
    by_cases hk : k = r
    · rw [lookupTable, if_pos hk] at hp
      simp [Option.getD] at hp
      simp [mentions]
      tauto
    · rw [lookupTable, if_neg hk] at hp
      simp [mentions]
      right; right
      simpa [mentions] using ih hp

theorem parentsOf_eq_nil_of_not_mem {h : Hierarchy} {r : Role}
    (hr : r ∉ mentions h) : parentsOf h r = [] := by
  cases heq : lookupTable h r with
  | none => simp [parentsOf, heq]
  | some l => exact absurd (lookupTable_mem_mentions heq) hr

theorem WReach_mono {h : Hierarchy} {A B : Finset Role} {a b : Role}
    (hAB : A ⊆ B) (hw : WReach h B a b) : WReach h A a b :=
  Relation.ReflTransGen.mono (fun _ _ hy => ⟨fun hy0 => hy.1 (hAB hy0), hy.2⟩) hw

theorem WReach_empty_iff {h : Hierarchy} {a b : Role} :
    WReach h ∅ a b ↔ Relation.ReflTransGen (roleEdge h) a b := by
  constructor
  · exact Relation.ReflTransGen.mono fun _ _ hy => hy.2
  · exact Relation.ReflTransGen.mono fun _ y hy => ⟨by simp, hy⟩

/-! ### Invariants of the fuelled traversal -/

theorem foldl_crhStep_none (f : Role → Finset Role → Option (Finset Role × Finset Role)) :
    ∀ ps : List Role, ps.foldl (crhStep f) none = none := by
  intro ps
  induction ps with
  | nil => rfl
  | cons p ps ih => simpa [crhStep] using ih

theorem foldl_crhStep_inv (h : Hierarchy)
    (f : Role → Finset Role → Option (Finset Role × Finset Role))
    (hf : ∀ p vis res vis', f p vis = some (res, vis') →
      vis ⊆ vis' ∧ p ∈ vis' ∧
      (∀ x ∈ vis', x ∈ vis ∨ (p ∉ vis ∧ WReach h vis p x)) ∧
      (∀ y ∈ vis', y ∉ vis → ∀ q ∈ parentsOf h y, q ∈ vis') ∧
      (∀ x, x ∈ res ↔ ∃ y, y ∈ vis' ∧ y ∉ vis ∧ roleEdge h y x)) :
    ∀ (ps : List Role) (res₀ vis₀ res vis' : Finset Role),
      ps.foldl (crhStep f) (some (res₀, vis₀)) = some (res, vis') →
      vis₀ ⊆ vis' ∧ (∀ p ∈ ps, p ∈ vis') ∧
      (∀ x ∈ vis', x ∈ vis₀ ∨ ∃ p ∈ ps, p ∉ vis₀ ∧ WReach h vis₀ p x) ∧
      (∀ y ∈ vis', y ∉ vis₀ → ∀ q ∈ parentsOf h y, q ∈ vis') ∧
      (∀ x, x ∈ res ↔ x ∈ res₀ ∨ x ∈ ps ∨ ∃ y, y ∈ vis' ∧ y ∉ vis₀ ∧ roleEdge h y x) := by
  intro ps
  induction ps with
  | nil =>
    intro res₀ vis₀ res vis' hfold
    simp only [List.foldl_nil, Option.some.injEq, Prod.mk.injEq] at hfold
    obtain ⟨rfl, rfl⟩ := hfold
    refine ⟨Finset.Subset.refl _, by simp, fun x hx => Or.inl hx, ?_, ?_⟩
    · intro y hy hy0
      exact absurd hy hy0
    · intro x
      simp only [List.not_mem_nil, false_or]
      constructor
      · exact fun hx => Or.inl hx
      · rintro (hx | ⟨y, hyv, hy0, -⟩)
        · exact hx
        · exact absurd hyv hy0
  | cons p ps ih =>
    intro res₀ vis₀ res vis' hfold
    rw [List.foldl_cons] at hfold
    cases hstep : f p vis₀ with
    | none =>
      rw [show crhStep f (some (res₀, vis₀)) p = none from by simp [crhStep, hstep],
        foldl_crhStep_none] at hfold
      exact absurd hfold (by simp)
    | some pr =>
      obtain ⟨sub, vis₁⟩ := pr
      rw [show crhStep f (some (res₀, vis₀)) p = some (insert p (res₀ ∪ sub), vis₁) from by
        simp [crhStep, hstep]] at hfold
      obtain ⟨hsub₁, hp₁, hsound₁, hclosed₁, hres₁⟩ := hf p vis₀ sub vis₁ hstep
      obtain ⟨hsub₂, hps₂, hsound₂, hclosed₂, hres₂⟩ := ih _ _ _ _ hfold
      refine ⟨hsub₁.trans hsub₂, ?_, ?_, ?_, ?_⟩
      · intro q hq
        rcases List.mem_cons.mp hq with rfl | hq
        · exact hsub₂ hp₁
        · exact hps₂ q hq
      · intro x hx
        rcases hsound₂ x hx with hx₁ | ⟨q, hqps, hqv, hw⟩
        · rcases hsound₁ x hx₁ with hx₀ | ⟨hpv, hw⟩
          · exact Or.inl hx₀
          · exact Or.inr ⟨p, List.mem_cons_self _ _, hpv, hw⟩
        · exact Or.inr ⟨q, List.mem_cons_of_mem _ hqps,
            fun hq₀ => hqv (hsub₁ hq₀), WReach_mono hsub₁ hw⟩
      · intro y hy hy₀
        by_cases hy₁ : y ∈ vis₁
        · intro q hq
          exact hsub₂ (hclosed₁ y hy₁ hy₀ q hq)
        · exact hclosed₂ y hy hy₁
      · intro x
        rw [hres₂ x]
        simp only [Finset.mem_insert, Finset.mem_union, hres₁ x, List.mem_cons]
        constructor
        · rintro ((rfl | hx₀ | ⟨y, hyv, hy₀, he⟩) | hx | ⟨y, hyv, hy₁, he⟩)
          · exact Or.inr (Or.inl (Or.inl rfl))
          · exact Or.inl hx₀
          · exact Or.inr (Or.inr ⟨y, hsub₂ hyv, hy₀, he⟩)
          · exact Or.inr (Or.inl (Or.inr hx))
          · exact Or.inr (Or.inr ⟨y, hyv, fun h₀ => hy₁ (hsub₁ h₀), he⟩)
        · rintro (hx₀ | (rfl | hx) | ⟨y, hyv, hy₀, he⟩)
          · exact Or.inl (Or.inr (Or.inl hx₀))
          · exact Or.inl (Or.inl rfl)
          · exact Or.inr (Or.inl hx)
          · by_cases hy₁ : y ∈ vis₁
            · exact Or.inl (Or.inr (Or.inr ⟨y, hy₁, hy₀, he⟩))
            · exact Or.inr (Or.inr ⟨y, hyv, hy₁, he⟩)

theorem crhVisit_inv (h : Hierarchy) :
    ∀ (fuel : Nat) (role : Role) (visited res vis' : Finset Role),
      crhVisit h fuel role visited = some (res, vis') →
      visited ⊆ vis' ∧ role ∈ vis' ∧
      (∀ x ∈ vis', x ∈ visited ∨ (role ∉ visited ∧ WReach h visited role x)) ∧
      (∀ y ∈ vis', y ∉ visited → ∀ q ∈ parentsOf h y, q ∈ vis') ∧
      (∀ x, x ∈ res ↔ ∃ y, y ∈ vis' ∧ y ∉ visited ∧ roleEdge h y x) := by
  intro fuel
  induction fuel with
  | zero =>
    intro role visited res vis' hv
    simp [crhVisit] at hv
  | succ fuel ih =>
    intro role visited res vis' hv
    rw [crhVisit] at hv
    by_cases hrole : role ∈ visited
    · rw [if_pos hrole] at hv
      simp only [Option.some.injEq, Prod.mk.injEq] at hv
      obtain ⟨rfl, rfl⟩ := hv
      refine ⟨Finset.Subset.refl _, hrole, fun x hx => Or.inl hx, ?_, ?_⟩
      · intro y hy hy0
        exact absurd hy hy0
      · intro x
        simp only [Finset.not_mem_empty, false_iff]
        rintro ⟨y, hyv, hy0, -⟩
        exact hy0 hyv
    · rw [if_neg hrole] at hv
      obtain ⟨hsub, hps, hsound, hclosed, hres⟩ :=
        foldl_crhStep_inv h _ (fun p vis res2 vis2 hp => ih p vis res2 vis2 hp) _ _ _ _ _ hv
      refine ⟨(Finset.subset_insert role visited).trans hsub,
        hsub (Finset.mem_insert_self role visited), ?_, ?_, ?_⟩
      · intro x hx
        rcases hsound x hx with hx' | ⟨p, hpps, hpv, hw⟩
        · rcases Finset.mem_insert.mp hx' with rfl | hxv
          · exact Or.inr ⟨hrole, Relation.ReflTransGen.refl⟩
          · exact Or.inl hxv
        · refine Or.inr ⟨hrole, ?_⟩
          have hpnv : p ∉ visited := fun hc => hpv (Finset.mem_insert_of_mem hc)
          exact Relation.ReflTransGen.head ⟨hpnv, hpps⟩
            (WReach_mono (Finset.subset_insert _ _) hw)
      · intro y hy hy₀
        by_cases hyr : y = role
        · subst hyr
          exact hps
        · exact hclosed y hy (by simp [Finset.mem_insert, hyr, hy₀])
      · intro x
        rw [hres x]
        simp only [Finset.not_mem_empty, false_or]
        constructor
        · rintro (hxp | ⟨y, hyv, hy₁, he⟩)
          · exact ⟨role, hsub (Finset.mem_insert_self role visited), hrole, hxp⟩
          · exact ⟨y, hyv, fun hc => hy₁ (Finset.mem_insert_of_mem hc), he⟩
        · rintro ⟨y, hyv, hy₀, he⟩
          by_cases hyr : y = role
          · subst hyr
            exact Or.inl he
          · exact Or.inr ⟨y, hyv, by simp [Finset.mem_insert, hyr, hy₀], he⟩

theorem foldl_crhStep_isSome (h : Hierarchy)
    (f : Role → Finset Role → Option (Finset Role × Finset Role)) (n : Nat)
    (hmono : ∀ p vis res vis', f p vis = some (res, vis') → vis ⊆ vis')
    (hsome : ∀ p vis, (mentionsFinset h \ vis).card < n → (f p vis).isSome) :
    ∀ (ps : List Role) (res₀ vis₀ : Finset Role),
      (mentionsFinset h \ vis₀).card < n →
      (ps.foldl (crhStep f) (some (res₀, vis₀))).isSome := by
  intro ps
  induction ps with
  | nil =>
    intro res₀ vis₀ _
    simp [List.foldl_nil]
  | cons p ps ih =>
    intro res₀ vis₀ hc
    obtain ⟨⟨sub, vis₁⟩, hstep⟩ := Option.isSome_iff_exists.mp (hsome p vis₀ hc)
    rw [List.foldl_cons,
      show crhStep f (some (res₀, vis₀)) p = some (insert p (res₀ ∪ sub), vis₁) from by
        simp [crhStep, hstep]]
    refine ih _ _ (lt_of_le_of_lt ?_ hc)
    exact Finset.card_le_card
      (Finset.sdiff_subset_sdiff (Finset.Subset.refl _) (hmono p vis₀ sub vis₁ hstep))

theorem crhVisit_isSome (h : Hierarchy) :
    ∀ (fuel : Nat) (role : Role) (visited : Finset Role),
      (mentionsFinset h \ visited).card < fuel →
      (crhVisit h fuel role visited).isSome := by
  intro fuel
  induction fuel with
  | zero =>
    intro role visited hc
    exact absurd hc (Nat.not_lt_zero _)
  | succ fuel ih =>
    intro role visited hc
    rw [crhVisit]
    by_cases hrole : role ∈ visited
    · rw [if_pos hrole]
      rfl
    · rw [if_neg hrole]
      by_cases hm : role ∈ mentionsFinset h
      · have hpos : 0 < (mentionsFinset h \ visited).card :=
          Finset.card_pos.mpr ⟨role, Finset.mem_sdiff.mpr ⟨hm, hrole⟩⟩
        have hcard : (mentionsFinset h \ insert role visited).card < fuel := by
          rw [Finset.sdiff_insert,
            Finset.card_erase_of_mem (Finset.mem_sdiff.mpr ⟨hm, hrole⟩)]
          omega
        exact foldl_crhStep_isSome h _ fuel
          (fun p vis res2 vis2 hp => (crhVisit_inv h fuel p vis res2 vis2 hp).1)
          (fun p vis hcv => ih p vis hcv) _ _ _ hcard
      · rw [parentsOf_eq_nil_of_not_mem (by simpa [mentionsFinset] using hm)]
        rfl

theorem crhVisit_top_isSome (h : Hierarchy) (role : Role) :
    (crhVisit h (hierFuel h) role ∅).isSome := by
  refine crhVisit_isSome h _ role ∅ ?_
  rw [Finset.sdiff_empty]
  show (mentions h).toFinset.card < (mentions h).length + 1
  exact Nat.lt_succ_of_le (List.toFinset_card_le _)

theorem mem_computeRoleHierarchy (h : Hierarchy) (role x : Role) :
    x ∈ computeRoleHierarchy h role ↔ Relation.TransGen (roleEdge h) role x := by
  obtain ⟨⟨res, vis⟩, hv⟩ := Option.isSome_iff_exists.mp (crhVisit_top_isSome h role)
  obtain ⟨hsub, hrole, hsound, hclosed, hres⟩ := crhVisit_inv h _ _ _ _ _ hv
  have hvis : ∀ z, z ∈ vis ↔ Relation.ReflTransGen (roleEdge h) role z := by
    intro z
    constructor
    · intro hz
      rcases hsound z hz with hz0 | ⟨-, hw⟩
      · exact absurd hz0 (Finset.not_mem_empty z)
      · exact WReach_empty_iff.mp hw
    · intro hr
      induction hr with
      | refl => exact hrole
      | tail hseg he ihh => exact hclosed _ ihh (Finset.not_mem_empty _) _ he
  have hcm : computeRoleHierarchy h role = res := by
    unfold computeRoleHierarchy
    rw [hv]
    rfl
  rw [hcm, hres x]
  constructor
  · rintro ⟨y, hyv, -, he⟩
    exact Relation.TransGen.tail' ((hvis y).mp hyv) he
  · intro ht
    obtain ⟨y, hy, he⟩ := Relation.TransGen.tail'_iff.mp ht
    exact ⟨y, (hvis y).mpr hy, Finset.not_mem_empty y, he⟩

/-! ### Helper lemmas for the query layer -/

theorem cachedHierarchyHas_true_iff (h : Hierarchy) (role req : Role) :
    cachedHierarchyHas h role req = true ↔
      req ∈ (cachedRoleHierarchy h role).getD ∅ := by
  unfold cachedHierarchyHas
  cases hc : cachedRoleHierarchy h role <;> simp

theorem cachedHierarchyHas_eq_false (h : Hierarchy) {role req : Role}
    (hreq : req ∉ (cachedRoleHierarchy h role).getD ∅) :
    cachedHierarchyHas h role req = false := by
  cases hb : cachedHierarchyHas h role req
  · rfl
  · exact absurd ((cachedHierarchyHas_true_iff h role req).mp hb) hreq

theorem cachedPermissionsHas_true_iff (h : Hierarchy) (pt : PermTable)
    (role : Role) (perm : Permission) :
    cachedPermissionsHas h pt role perm = true ↔
      ∃ s, cachedRolePermissions h pt role = some s ∧ perm ∈ s := by
  unfold cachedPermissionsHas
  cases hc : cachedRolePermissions h pt role <;> simp

/-! ### Claim theorems -/

/-- C2 counterexample: in the one-role hierarchy where `a` lists itself as
its own parent (a direct self-loop with no other path back), the computed
closure of `a` does contain `a`, contrary to the claim that it must not:
`result.add(inheritedRole)` runs before the recursive call hits the cycle
guard. -/
theorem selfLoop_closure_counterexample :
    parentsOf [("a", ["a"])] "a" = ["a"] ∧
    "a" ∈ computeRoleHierarchy [("a", ["a"])] "a" := by
  decide

/-- C2 (amended): a role `R` is in its own computed closure exactly when `R`
lies on a cycle of the hierarchy, i.e. is reachable from itself through one
or more parent edges; in particular a direct self-loop already puts `R`
into `closure(R)`. -/
theorem mem_closure_self_iff_cycle (h : Hierarchy) (r : Role) :
    r ∈ computeRoleHierarchy h r ↔ Relation.TransGen (roleEdge h) r r :=
  mem_computeRoleHierarchy h r r

/-- C3: for every hierarchy (cyclic ones included) and every role `r`, the
top-level closure computation returns exactly the set of roles reachable
from `r` by one or more parent edges; detecting an already-visited role
prunes only that branch and loses no role reachable through another
branch. -/
theorem closure_eq_reachable (h : Hierarchy) (r x : Role) :
    x ∈ computeRoleHierarchy h r ↔ Relation.TransGen (roleEdge h) r x :=
  mem_computeRoleHierarchy h r x

/-- C4: for every hierarchy, cyclic ones included, the traversal
terminates: fuel equal to the number of role occurrences in the table plus
one (a bound on how far the visited set can grow) is always enough for the
fuelled recursion to complete, and `computeRoleHierarchy` returns the
result it computes. -/
theorem computeRoleHierarchy_terminates (h : Hierarchy) (role : Role) :
    ∃ pr : Finset Role × Finset Role,
      crhVisit h (hierFuel h) role ∅ = some pr ∧
        computeRoleHierarchy h role = pr.1 := by
  obtain ⟨pr, hv⟩ := Option.isSome_iff_exists.mp (crhVisit_top_isSome h role)
  refine ⟨pr, hv, ?_⟩
  unfold computeRoleHierarchy
  rw [hv]
  rfl

/-- C1 counterexample: under the shipped config, `sales_manager` and
`editor` are siblings (neither's cached closure contains the other), yet
`getMaxRole()` on the held-role list `[sales_manager, editor]` returns
`editor`, the role appearing last, not first: the reduce replaces the
champion whenever the champion's closure does not contain the candidate. -/
theorem getMaxRole_siblings_counterexample :
    "editor" ∉ (cachedRoleHierarchy RoleHierarchy "sales_manager").getD ∅ ∧
    "sales_manager" ∉ (cachedRoleHierarchy RoleHierarchy "editor").getD ∅ ∧
    getMaxRole RoleHierarchy ⟨["sales_manager", "editor"], []⟩ = some "editor" ∧
    "editor" ≠ "sales_manager" := by
  decide

/-- C1 (amended): for every context whose roles list holds two roles
neither of which is contained in the other's cached closure,
`getMaxRole()` returns the one of the two that appears last in the
held-role list. -/
theorem getMaxRole_unrelated_returns_last (h : Hierarchy)
    (perms : List Permission) (A B : Role)
    (hBA : B ∉ (cachedRoleHierarchy h A).getD ∅)
    (_hAB : A ∉ (cachedRoleHierarchy h B).getD ∅) :
    getMaxRole h ⟨[A, B], perms⟩ = some B := by
  have hcond : cachedHierarchyHas h A B = false := cachedHierarchyHas_eq_false h hBA
  unfold getMaxRole
  simp only [List.foldl_cons, List.foldl_nil, ite_self, hcond, Bool.false_eq_true,
    if_false]

/-- Witness for `getMaxRole_unrelated_returns_last` at the shipped
configuration's sibling pair. -/
theorem getMaxRole_unrelated_returns_last_witness :
    getMaxRole RoleHierarchy ⟨["sales_manager", "editor"], []⟩ = some "editor" :=
  getMaxRole_unrelated_returns_last RoleHierarchy [] "sales_manager" "editor"
    (by decide) (by decide)

theorem cachedPermissionsHas_eq_false (h : Hierarchy) (pt : PermTable)
    {role : Role} {perm : Permission}
    (hp : perm ∉ (cachedRolePermissions h pt role).getD ∅) :
    cachedPermissionsHas h pt role perm = false := by
  cases hb : cachedPermissionsHas h pt role perm
  · rfl
  · obtain ⟨s, hs, hmem⟩ := (cachedPermissionsHas_true_iff h pt role perm).mp hb
    rw [hs] at hp
    exact absurd hmem hp

/-- C5: for every role that is a key of the permission table, the cached
effective permission set equals exactly the union of the role's direct
grants and the direct grants of every role in its cached closure; a role
missing from either table contributes the empty set. -/
theorem cachedPermissions_spec (h : Hierarchy) (pt : PermTable) (R : Role)
    (hk : isKey pt R = true) :
    ∃ s, cachedRolePermissions h pt R = some s ∧
      ∀ p, p ∈ s ↔ (p ∈ directPerms pt R ∨
        ∃ S ∈ (cachedRoleHierarchy h R).getD ∅, p ∈ directPerms pt S) := by
  refine ⟨computePermissions h pt R ∅, by simp [cachedRolePermissions, hk], ?_⟩
  intro p
  unfold computePermissions
  rw [if_neg (Finset.not_mem_empty R)]
  cases hc : cachedRoleHierarchy h R with
  | none => simp [hc]
  | some s => simp [hc, Finset.mem_union, Finset.mem_biUnion]

/-- Witness for `cachedPermissions_spec` at the shipped tables and role
`admin`. -/
theorem cachedPermissions_spec_witness :
    ∃ s, cachedRolePermissions RoleHierarchy RoleBasedPermissions "admin" = some s ∧
      ∀ p, p ∈ s ↔ (p ∈ directPerms RoleBasedPermissions "admin" ∨
        ∃ S ∈ (cachedRoleHierarchy RoleHierarchy "admin").getD ∅,
          p ∈ directPerms RoleBasedPermissions S) :=
  cachedPermissions_spec RoleHierarchy RoleBasedPermissions "admin" (by decide)

/-- C6: `hasPermission(p)` is true exactly when `p` is among the context's
explicit permissions or some held role has a permission-cache entry whose
set contains `p`; the explicit check does not depend on any role being
cached. -/
theorem hasPermission_iff (h : Hierarchy) (pt : PermTable)
    (ctx : PermissionContext) (p : Permission) :
    hasPermission h pt ctx p = true ↔
      p ∈ ctx.permissions ∨
        ∃ r ∈ ctx.roles, ∃ s, cachedRolePermissions h pt r = some s ∧ p ∈ s := by
  unfold hasPermission
  by_cases hp : p ∈ ctx.permissions
  · simp [hp]
  · rw [if_neg hp]
    unfold hasPermissionThroughRole
    rw [List.any_eq_true]
    simp only [cachedPermissionsHas_true_iff]
    simp [hp]

/-- C7: `hasPermissions` is the conjunction of `hasPermission` over the
list and `hasAnyPermission` the disjunction; on the empty list they return
true and false respectively. -/
theorem hasPermissions_hasAny_spec (h : Hierarchy) (pt : PermTable)
    (ctx : PermissionContext) (l : List Permission) :
    (hasPermissions h pt ctx l = true ↔
      ∀ p ∈ l, hasPermission h pt ctx p = true) ∧
    (hasAnyPermission h pt ctx l = true ↔
      ∃ p ∈ l, hasPermission h pt ctx p = true) ∧
    hasPermissions h pt ctx [] = true ∧
    hasAnyPermission h pt ctx [] = false := by
  refine ⟨?_, ?_, rfl, rfl⟩
  · unfold hasPermissions
    exact List.all_eq_true
  · unfold hasAnyPermission
    exact List.any_eq_true

/-- C8: no query operation signals an error for unknown roles or
permissions — a permission outside the explicit list and outside every
held role's cached set yields `false` from `hasPermission`,
`hasPermissions` and `hasAnyPermission`; a role not held and not in any
held role's cached closure yields `false` from `hasRole`; and
`getMaxRole()` on an empty held-role list yields the absent result rather
than an arbitrary role. -/
theorem queries_no_throw (h : Hierarchy) (pt : PermTable)
    (ctx : PermissionContext) (p : Permission) (r : Role) :
    (ctx.roles = [] → getMaxRole h ctx = none) ∧
    (p ∉ ctx.permissions →
      (∀ q ∈ ctx.roles, p ∉ (cachedRolePermissions h pt q).getD ∅) →
      hasPermission h pt ctx p = false ∧ hasPermissions h pt ctx [p] = false ∧
        hasAnyPermission h pt ctx [p] = false) ∧
    (r ∉ ctx.roles →
      (∀ q ∈ ctx.roles, r ∉ (cachedRoleHierarchy h q).getD ∅) →
      hasRole h ctx r = false) := by
  refine ⟨?_, ?_, ?_⟩
  · intro hroles
    unfold getMaxRole
    rw [hroles]
  · intro hp hcache
    have hfalse : hasPermission h pt ctx p = false := by
      unfold hasPermission
      rw [if_neg hp]
      unfold hasPermissionThroughRole
      rw [List.any_eq_false]
      intro q hq
      simp [cachedPermissionsHas_eq_false h pt (hcache q hq)]
    refine ⟨hfalse, ?_, ?_⟩
    · simp [hasPermissions, hfalse]
    · simp [hasAnyPermission, hfalse]
  · intro hr hcache
    unfold hasRole
    rw [List.any_eq_false]
    intro q hq
    have h1 : cachedHierarchyHas h q r = false :=
      cachedHierarchyHas_eq_false h (hcache q hq)
    have h2 : q ≠ r := fun he => hr (he ▸ hq)
    simp [h1, h2]

/-- Witness for `queries_no_throw`: the empty context gives an absent
maximum role, and under the shipped tables a context holding only `admin`
answers `false` for a permission and a role that appear nowhere. -/
theorem queries_no_throw_witness :
    getMaxRole RoleHierarchy ⟨[], []⟩ = none ∧
    hasPermission RoleHierarchy RoleBasedPermissions ⟨["admin"], []⟩
      "custom:absent" = false ∧
    hasRole RoleHierarchy ⟨["admin"], []⟩ "ghost" = false :=
  ⟨(queries_no_throw RoleHierarchy RoleBasedPermissions ⟨[], []⟩ "x" "y").1 rfl,
   ((queries_no_throw RoleHierarchy RoleBasedPermissions ⟨["admin"], []⟩
      "custom:absent" "ghost").2.1 (by decide) (by decide)).1,
   (queries_no_throw RoleHierarchy RoleBasedPermissions ⟨["admin"], []⟩
      "custom:absent" "ghost").2.2 (by decide) (by decide)⟩

/-- C9: `sales_manager` is a hierarchy key but not a permission-table key,
so the permission cache has no entry for it, and a context holding only
`sales_manager` with no explicit permissions is denied every permission —
including the ones its closure would inherit. -/
theorem sales_manager_no_permissions :
    isKey RoleHierarchy "sales_manager" = true ∧
    isKey RoleBasedPermissions "sales_manager" = false ∧
    ∀ p : Permission,
      hasPermission RoleHierarchy RoleBasedPermissions
        ⟨["sales_manager"], []⟩ p = false := by
  refine ⟨rfl, rfl, ?_⟩
  intro p
  unfold hasPermission
  rw [if_neg (List.not_mem_nil p)]
  have h1 : cachedRolePermissions RoleHierarchy RoleBasedPermissions
      "sales_manager" = none := rfl
  have h2 : cachedPermissionsHas RoleHierarchy RoleBasedPermissions
      "sales_manager" p = false := by
    unfold cachedPermissionsHas
    rw [h1]
  simp [hasPermissionThroughRole, h2]

/-- C10: in the shipped config the hierarchy key `proof_reader`
(underscore) differs from the parent reference `proof-reader` (hyphen)
listed under `manager`, so admin's cached closure contains the hyphenated
name but not the underscored one; `hasRole` answers accordingly, and
`proof_reader`'s own entry is never reached through admin. -/
theorem proof_reader_hyphen_mismatch :
    isKey RoleHierarchy "proof_reader" = true ∧
    "proof-reader" ∈ parentsOf RoleHierarchy "manager" ∧
    isKey RoleHierarchy "proof-reader" = false ∧
    "proof-reader" ∈ (cachedRoleHierarchy RoleHierarchy "admin").getD ∅ ∧
    "proof_reader" ∉ (cachedRoleHierarchy RoleHierarchy "admin").getD ∅ ∧
    hasRole RoleHierarchy ⟨["admin"], []⟩ "proof-reader" = true ∧
    hasRole RoleHierarchy ⟨["admin"], []⟩ "proof_reader" = false := by
  decide
